import Mathlib

/-!
Verification of `gowebserver` (`src/main.go`): a minimal HTTP server with a
static file endpoint behind a hit-counting middleware, metrics and reset
handlers for the counter, a health endpoint, and a chirp-validation endpoint
that bounds the body length and masks blacklisted words.

Strings are modelled as `List Char`; the word-level routines from
`strings` (`Fields`, `Join`, `ToLower`) are embedded below.
-/

namespace GoWebServer

/-- Go `unicode.IsSpace`: the Unicode White_Space code points
(`\t \n \v \f \r`, space, NEL, NBSP, and the higher space code points). -/
def goIsSpace (c : Char) : Bool :=
  (9 ≤ c.toNat && c.toNat ≤ 13) || c.toNat == 32 || c.toNat == 0x85 ||
  c.toNat == 0xA0 || c.toNat == 0x1680 ||
  (0x2000 ≤ c.toNat && c.toNat ≤ 0x200A) || c.toNat == 0x2028 ||
  c.toNat == 0x2029 || c.toNat == 0x202F || c.toNat == 0x205F ||
  c.toNat == 0x3000

/-- Go `strings.ToLower` on a single character, for the ASCII range used by
the blacklist: `A`–`Z` maps to `a`–`z`, everything else is unchanged. -/
def goToLowerChar (c : Char) : Char :=
  if 'A' ≤ c && c ≤ 'Z' then Char.ofNat (c.toNat + 32) else c

/-- Go `strings.ToLower` (ASCII case mapping). -/
def goToLower (s : List Char) : List Char :=
  s.map goToLowerChar

/-- Convert a Lean string literal to the `List Char` string model. -/
def str (s : String) : List Char :=
  s.toList

theorem length_dropWhile_le (p : Char → Bool) (l : List Char) :
    (l.dropWhile p).length ≤ l.length := by
  induction l with
  | nil => simp
  | cons c rest ih =>
    rw [List.dropWhile_cons]
    split
    · exact Nat.le_succ_of_le ih
    · exact Nat.le_refl _

/-- Go `strings.Fields`: the maximal runs of non-whitespace characters,
splitting around any amount of white space. -/
def fields : List Char → List (List Char)
  | [] => []
  | c :: rest =>
    if goIsSpace c then fields rest
    else (c :: rest.takeWhile (fun x => !goIsSpace x)) ::
      fields (rest.dropWhile (fun x => !goIsSpace x))
termination_by l => l.length
decreasing_by
  · simp only [List.length_cons]; exact Nat.lt_succ_of_le (Nat.le_refl _)
  · simp only [List.length_cons]
    exact Nat.lt_succ_of_le (length_dropWhile_le _ _)

/-- Go `strings.Join(words, " ")`: intercalate a single space. -/
def joinSpace : List (List Char) → List Char
  | [] => []
  | [w] => w
  | w :: ws => w ++ ' ' :: joinSpace ws

/-- The inner loop of `replaceProfaneWords` (`main.go:32-37`): word `w` is
masked when its lowercase form equals the lowercase form of some word of the
blacklist (the `break` makes the loop equivalent to an existence check). -/
def isProfane (profaneWords : List (List Char)) (w : List Char) : Bool :=
  profaneWords.any (fun p => goToLower w == goToLower p)

/-- The mask token `"****"` written over a blacklisted word (`main.go:34`). -/
def maskWord (profaneWords : List (List Char)) (w : List Char) : List Char :=
  if isProfane profaneWords w then str "****" else w

/-- Function `replaceProfaneWords` (`main.go:28-40`): split the text into fields, mask
each blacklisted word in place, and join the words back with single spaces. -/
def replaceProfaneWords (text : List Char) (profaneWords : List (List Char)) :
    List Char :=
  joinSpace ((fields text).map (maskWord profaneWords))

/-- The blacklist of `validateChirpHandler` (`main.go:121`). -/
def profaneWords : List (List Char) :=
  [str "kerfuffle", str "sharbert", str "fornax"]

theorem mem_takeWhile {p : Char → Bool} {a : Char} :
    ∀ {l : List Char}, a ∈ l.takeWhile p → p a = true := by
  intro l h
  induction l with
  | nil => simp [List.takeWhile] at h
  | cons c rest ih =>
    rw [List.takeWhile_cons] at h
    by_cases hc : p c = true
    · simp [hc] at h
      rcases h with h | h
      · exact h ▸ hc
      · exact ih h
    · simp [hc] at h

theorem takeWhile_append_all {p : Char → Bool} {w : List Char}
    (hw : ∀ a ∈ w, p a = true) (l : List Char) :
    (w ++ l).takeWhile p = w ++ l.takeWhile p := by
  induction w with
  | nil => simp
  | cons c rest ih =>
    have hc : p c = true := hw c (List.mem_cons_self c rest)
    simp only [List.cons_append, List.takeWhile_cons_of_pos hc, List.cons.injEq,
      true_and]
    exact ih (fun a ha => hw a (List.mem_cons_of_mem c ha))

theorem dropWhile_append_all {p : Char → Bool} {w : List Char}
    (hw : ∀ a ∈ w, p a = true) (l : List Char) :
    (w ++ l).dropWhile p = l.dropWhile p := by
  induction w with
  | nil => simp
  | cons c rest ih =>
    have hc : p c = true := hw c (List.mem_cons_self c rest)
    simp only [List.cons_append, List.dropWhile_cons_of_pos hc]
    exact ih (fun a ha => hw a (List.mem_cons_of_mem c ha))

/-- Holds when `l` is empty or starts with a whitespace character. -/
def startsBlank : List Char → Prop
  | [] => True
  | c :: _ => goIsSpace c = true

theorem fields_cons_space {c : Char} (h : goIsSpace c = true) (l : List Char) :
    fields (c :: l) = fields l := by
  rw [fields, if_pos h]

/-- A non-empty whitespace-free word followed by blank-or-nothing is cut off
as the first field. -/
theorem fields_word_prefix {w : List Char} (hne : w ≠ [])
    (hw : ∀ c ∈ w, goIsSpace c = false) {l : List Char} (hl : startsBlank l) :
    fields (w ++ l) = w :: fields l := by
  obtain ⟨c, w', rfl⟩ := List.exists_cons_of_ne_nil hne
  have hc : goIsSpace c = false := hw c (List.mem_cons_self c w')
  have hw' : ∀ a ∈ w', (fun x => !goIsSpace x) a = true := by
    intro a ha
    simp [hw a (List.mem_cons_of_mem c ha)]
  have htake : (w' ++ l).takeWhile (fun x => !goIsSpace x) = w' := by
    rw [takeWhile_append_all hw']
    cases l with
    | nil => simp
    | cons d l' =>
      have hd : goIsSpace d = true := hl
      rw [List.takeWhile_cons_of_neg (by simp [hd]), List.append_nil]
  have hdrop : (w' ++ l).dropWhile (fun x => !goIsSpace x) = l := by
    rw [dropWhile_append_all hw']
    cases l with
    | nil => simp
    | cons d l' =>
      have hd : goIsSpace d = true := hl
      rw [List.dropWhile_cons_of_neg (by simp [hd])]
  rw [List.cons_append, fields, if_neg (by simp [hc]), htake, hdrop]

/-- Every field is a non-empty run of non-whitespace characters. -/
theorem fields_sound (l : List Char) :
    ∀ w ∈ fields l, w ≠ [] ∧ ∀ c ∈ w, goIsSpace c = false := by
  induction l using fields.induct with
  | case1 => simp [fields]
  | case2 c rest h ih =>
    rw [fields_cons_space h]
    exact ih
  | case3 c rest h ih =>
    rw [fields, if_neg h]
    intro w hw
    rcases List.mem_cons.mp hw with rfl | hw'
    · refine ⟨List.cons_ne_nil _ _, ?_⟩
      intro d hd
      rcases List.mem_cons.mp hd with rfl | hd'
      · exact Bool.not_eq_true _ ▸ (by simpa using h)
      · have := mem_takeWhile hd'
        simpa using this
    · exact ih w hw'

/-- Function `fields` recovers the word list from a single-space join of non-empty
whitespace-free words. -/
theorem fields_joinSpace {ws : List (List Char)}
    (h : ∀ w ∈ ws, w ≠ [] ∧ ∀ c ∈ w, goIsSpace c = false) :
    fields (joinSpace ws) = ws := by
  induction ws with
  | nil => simp [joinSpace, fields]
  | cons w ws ih =>
    obtain ⟨hne, hw⟩ := h w (List.mem_cons_self w ws)
    cases ws with
    | nil =>
      have : fields (w ++ []) = w :: fields [] :=
        fields_word_prefix hne hw trivial
      simpa [joinSpace, fields] using this
    | cons w' ws' =>
      have hrest : ∀ u ∈ w' :: ws', u ≠ [] ∧ ∀ c ∈ u, goIsSpace c = false :=
        fun u hu => h u (List.mem_cons_of_mem w hu)
      have hb : startsBlank (' ' :: joinSpace (w' :: ws')) := by
        show goIsSpace ' ' = true
        decide
      calc fields (joinSpace (w :: w' :: ws'))
          = fields (w ++ ' ' :: joinSpace (w' :: ws')) := rfl
        _ = w :: fields (' ' :: joinSpace (w' :: ws')) :=
            fields_word_prefix hne hw hb
        _ = w :: fields (joinSpace (w' :: ws')) := by
            rw [fields_cons_space (by decide)]
        _ = w :: w' :: ws' := by rw [ih hrest]

theorem maskWord_sound (pws : List (List Char)) {w : List Char} (hne : w ≠ [])
    (hw : ∀ c ∈ w, goIsSpace c = false) :
    maskWord pws w ≠ [] ∧ ∀ c ∈ maskWord pws w, goIsSpace c = false := by
  unfold maskWord
  split
  · exact ⟨by decide, by decide⟩
  · exact ⟨hne, hw⟩

/-- Splitting the output of `replaceProfaneWords` back into fields yields
exactly the masked input fields. -/
theorem fields_replaceProfaneWords (text : List Char)
    (pws : List (List Char)) :
    fields (replaceProfaneWords text pws) = (fields text).map (maskWord pws) := by
  unfold replaceProfaneWords
  apply fields_joinSpace
  intro w hw
  rcases List.mem_map.mp hw with ⟨u, hu, rfl⟩
  obtain ⟨hne, hchars⟩ := fields_sound text u hu
  exact maskWord_sound pws hne hchars

theorem mask_not_profane : isProfane profaneWords (str "****") = false := by
  decide

theorem maskWord_idem (w : List Char) :
    maskWord profaneWords (maskWord profaneWords w) = maskWord profaneWords w := by
  unfold maskWord
  split
  · rw [if_neg (by rw [mask_not_profane]; exact Bool.false_ne_true)]
  · rfl

theorem isProfane_iff (w : List Char) :
    isProfane profaneWords w = true ↔
      (goToLower w = goToLower (str "kerfuffle") ∨
       goToLower w = goToLower (str "sharbert") ∨
       goToLower w = goToLower (str "fornax")) := by
  simp [isProfane, profaneWords]

/-- Claim C2: in the output of `replaceProfaneWords` for the handler's
blacklist, each whitespace-delimited token whose lowercase form equals the
lowercase form of `"kerfuffle"`, `"sharbert"` or `"fornax"` is replaced by
the mask token `"****"`, and every other token is left unchanged. -/
theorem replaceProfaneWords_masks_exactly_blacklisted (text : List Char) :
    fields (replaceProfaneWords text profaneWords) =
      (fields text).map (fun w =>
        if goToLower w = goToLower (str "kerfuffle") ∨
           goToLower w = goToLower (str "sharbert") ∨
           goToLower w = goToLower (str "fornax")
        then str "****" else w) := by
  rw [fields_replaceProfaneWords]
  apply List.map_congr_left
  intro w _
  unfold maskWord
  by_cases hp : isProfane profaneWords w = true
  · rw [if_pos hp, if_pos ((isProfane_iff w).mp hp)]
  · rw [if_neg hp, if_neg (fun hcon => hp ((isProfane_iff w).mpr hcon))]

/-- Claim C9: `replaceProfaneWords` with the fixed blacklist is idempotent. -/
theorem replaceProfaneWords_idem (text : List Char) :
    replaceProfaneWords (replaceProfaneWords text profaneWords) profaneWords =
      replaceProfaneWords text profaneWords := by
  rw [show replaceProfaneWords (replaceProfaneWords text profaneWords)
        profaneWords =
      joinSpace ((fields (replaceProfaneWords text profaneWords)).map
        (maskWord profaneWords)) from rfl]
  rw [fields_replaceProfaneWords, List.map_map]
  rw [funext maskWord_idem (f := maskWord profaneWords ∘ maskWord profaneWords)]
  rfl

theorem fields_nil : fields ([] : List Char) = [] := by
  simp [fields]

theorem fields_single_word {w : List Char} (hne : w ≠ [])
    (hw : ∀ c ∈ w, goIsSpace c = false) : fields w = [w] := by
  have h := fields_word_prefix hne hw (l := []) trivial
  rw [List.append_nil] at h
  rw [h, fields_nil]

theorem fields_a_blank_blank_b : fields (str "a  b") = [str "a", str "b"] := by
  have hb : fields ('b' :: []) = [['b']] :=
    fields_single_word (by decide) (by decide)
  have h2 : fields (' ' :: 'b' :: []) = [['b']] := by
    rw [fields_cons_space (by decide), hb]
  have h3 : fields (' ' :: ' ' :: 'b' :: []) = [['b']] := by
    rw [fields_cons_space (by decide), h2]
  calc fields (str "a  b")
      = fields (['a'] ++ (' ' :: ' ' :: 'b' :: [])) := rfl
    _ = ['a'] :: fields (' ' :: ' ' :: 'b' :: []) :=
        fields_word_prefix (by decide) (by decide)
          (show goIsSpace ' ' = true by decide)
    _ = [str "a", str "b"] := by rw [h3]; rfl

/-- Claim C3, counterexample: the input `"a  b"` contains no blacklisted
token, yet `replaceProfaneWords` does not return it unchanged (the double
space collapses to a single space). -/
theorem replaceProfaneWords_changes_unnormalized_whitespace :
    (∀ w ∈ fields (str "a  b"), isProfane profaneWords w = false) ∧
    replaceProfaneWords (str "a  b") profaneWords ≠ str "a  b" := by
  constructor
  · rw [fields_a_blank_blank_b]
    decide
  · rw [show replaceProfaneWords (str "a  b") profaneWords =
        joinSpace ((fields (str "a  b")).map (maskWord profaneWords)) from rfl]
    rw [fields_a_blank_blank_b]
    decide

/-- Claim C3 (amended): on input with no blacklisted token,
`replaceProfaneWords` returns the input's whitespace-delimited tokens
unchanged, joined by single spaces; in particular the token sequence of the
output equals that of the input. -/
theorem replaceProfaneWords_clean_input (text : List Char)
    (h : ∀ w ∈ fields text, isProfane profaneWords w = false) :
    replaceProfaneWords text profaneWords = joinSpace (fields text) ∧
    fields (replaceProfaneWords text profaneWords) = fields text := by
  have hmap : (fields text).map (maskWord profaneWords) = fields text := by
    have h1 : (fields text).map (maskWord profaneWords) = (fields text).map id :=
      List.map_congr_left (fun w hw => by simp [maskWord, h w hw])
    rw [h1, List.map_id]
  exact ⟨by rw [show replaceProfaneWords text profaneWords =
      joinSpace ((fields text).map (maskWord profaneWords)) from rfl, hmap],
    by rw [fields_replaceProfaneWords, hmap]⟩

/-- Witness for the amended claim C3, at the clean input `"hi"`. -/
theorem replaceProfaneWords_clean_input_witness :
    replaceProfaneWords (str "hi") profaneWords =
      joinSpace (fields (str "hi")) ∧
    fields (replaceProfaneWords (str "hi") profaneWords) = fields (str "hi") := by
  have hf : fields (str "hi") = [str "hi"] :=
    fields_single_word (by decide) (by decide)
  exact replaceProfaneWords_clean_input (str "hi")
    (by rw [hf]; decide)

/-! ### The server model

`apiConfig` (`main.go:12-15`) carries the mutable hit counter; the mutex is
treated separately by the lock-discipline model below. Handlers are embedded
as functions from the configuration (and request data) to the new
configuration and the sequence of responses they write. -/

/-- Struct `apiConfig` (`main.go:12-15`): the shared state is the hit counter. -/
structure apiConfig where
  fileserverHits : Int
deriving DecidableEq, Repr

/-- Startup state `apiCfg := &apiConfig{}` (`main.go:132`): the Go zero value, so the
counter starts at `0`. -/
def initialApiConfig : apiConfig :=
  { fileserverHits := 0 }

/-- The JSON or plain-text payload a handler writes. -/
inductive RespBody where
  /-- Payload of `respondWithError` `{"error": msg}` (`main.go:17-20`). -/
  | jsonError (msg : List Char)
  /-- Payload of `respondWithJSON` `{"cleaned_body": body}` (`main.go:125`). -/
  | jsonCleaned (cleanedBody : List Char)
  /-- A plain-text (or HTML) body written with `w.Write`. -/
  | plainText (t : List Char)
deriving DecidableEq, Repr

/-- One response written to the `http.ResponseWriter`: a status code and a
body payload. -/
structure Response where
  status : Nat
  body : RespBody
deriving DecidableEq, Repr

/-- Function `respondWithError` (`main.go:17-20`): write the status and an error
JSON object. -/
def respondWithError (status : Nat) (message : List Char) : Response :=
  { status := status, body := .jsonError message }

/-- Function `respondWithJSON` for the `cleaned_body` payload (`main.go:22-26`,
used at `main.go:125`). -/
def respondWithJSONCleaned (status : Nat) (cleanedBody : List Char) :
    Response :=
  { status := status, body := .jsonCleaned cleanedBody }

/-- HTTP request methods distinguished by the program. -/
inductive Method where
  | get
  | post
  | other
deriving DecidableEq, Repr

/-- The UTF-8 byte count of one character (Go `len` counts bytes). -/
def charUtf8Len (c : Char) : Nat :=
  if c.toNat < 0x80 then 1
  else if c.toNat < 0x800 then 2
  else if c.toNat < 0x10000 then 3
  else 4

/-- Go `len(s)` on a string: the UTF-8 byte length. -/
def utf8Len (s : List Char) : Nat :=
  (s.map charUtf8Len).sum

/-- Handler `validateChirpHandler` (`main.go:96-127`). The JSON decode outcome of
the request body is taken as input (`Except` models a failed or successful
`decoder.Decode`); the result is the list of responses written, in order.
Note the too-long branch (`main.go:117-119`) does not return, so control
falls through to the success response. -/
def validateChirpHandler (method : Method)
    (decoded : Except Unit (List Char)) : List Response :=
  if method ≠ Method.post then
    [respondWithError 405 (str "Method not allowed")]
  else
    match decoded with
    | .error _ => [respondWithError 400 (str "Something went wrong")]
    | .ok body =>
      (if utf8Len body > 140
        then [respondWithError 400 (str "Chirp is too long")]
        else [])
      ++ [respondWithJSONCleaned 200 (replaceProfaneWords body profaneWords)]

/-- Middleware `middlewareMetricsInc` (`main.go:42-52`): increment the counter, then
run the wrapped handler on the updated state. -/
def middlewareMetricsInc (next : apiConfig → apiConfig × Response)
    (cfg : apiConfig) : apiConfig × Response :=
  next { cfg with fileserverHits := cfg.fileserverHits + 1 }

/-- The HTML template of `metricsHandler` (`main.go:63-70`), with the hit
count formatted into it. -/
def metricsBody (hits : Int) : List Char :=
  str "\n\t<html>\n\t\t<body>\n\t\t\t<h1>Welcome, Chirpy Admin</h1>\n\t\t\t<p>Chirpy has been visited " ++
    (toString hits).toList ++
  str " times!</p>\n\t\t</body>\n\t</html>\n\t"

/-- Handler `metricsHandler` (`main.go:54-73`): read the counter and write the HTML
page with it; the counter is not modified. -/
def metricsHandler (cfg : apiConfig) : apiConfig × Response :=
  (cfg, { status := 200, body := .plainText (metricsBody cfg.fileserverHits) })

/-- Handler `resetHandler` (`main.go:75-85`): zero the counter and answer
`200 "Hits counter reset"`. -/
def resetHandler (_cfg : apiConfig) : apiConfig × Response :=
  ({ fileserverHits := 0 },
   { status := 200, body := .plainText (str "Hits counter reset") })

/-- Claim C5: at startup, before any request is served, the hit counter is
zero (`apiConfig{}` zero value, `main.go:132`). -/
theorem initial_fileserverHits_eq_zero :
    initialApiConfig.fileserverHits = 0 :=
  rfl

/-- Claim C4: the metrics middleware runs the wrapped handler on the state
whose counter is already incremented by one; when the wrapped handler (the
static file server) leaves the counter alone, each dispatched request
increases the counter by exactly one. -/
theorem middlewareMetricsInc_increments_before_next
    (next : apiConfig → apiConfig × Response) (cfg : apiConfig)
    (hnext : ∀ c, (next c).1 = c) :
    middlewareMetricsInc next cfg =
      next { fileserverHits := cfg.fileserverHits + 1 } ∧
    (middlewareMetricsInc next cfg).1.fileserverHits =
      cfg.fileserverHits + 1 := by
  refine ⟨rfl, ?_⟩
  rw [show (middlewareMetricsInc next cfg).1 =
      (next { fileserverHits := cfg.fileserverHits + 1 }).1 from rfl,
    hnext]

/-- Witness for claim C4: a counter-preserving wrapped handler, starting
from five hits. -/
theorem middlewareMetricsInc_increments_before_next_witness :
    middlewareMetricsInc
        (fun c => (c, { status := 200, body := RespBody.plainText (str "OK") }))
        { fileserverHits := 5 } =
      (fun (c : apiConfig) =>
        (c, { status := 200, body := RespBody.plainText (str "OK") }))
        { fileserverHits := (5 : Int) + 1 } ∧
    (middlewareMetricsInc
        (fun c => (c, { status := 200, body := RespBody.plainText (str "OK") }))
        { fileserverHits := 5 }).1.fileserverHits = (5 : Int) + 1 :=
  middlewareMetricsInc_increments_before_next
    (fun c => (c, { status := 200, body := RespBody.plainText (str "OK") }))
    { fileserverHits := 5 } (fun _ => rfl)

/-- Claim C6: for any current counter value, `resetHandler` zeroes the
counter and answers `200 "Hits counter reset"`, and `metricsHandler` leaves
the state unchanged and answers `200` with a body containing the current
counter value. -/
theorem reset_and_metrics_handlers (cfg : apiConfig) :
    (resetHandler cfg).1.fileserverHits = 0 ∧
    (resetHandler cfg).2 =
      { status := 200, body := .plainText (str "Hits counter reset") } ∧
    (metricsHandler cfg).1 = cfg ∧
    (metricsHandler cfg).2.status = 200 ∧
    (∃ pre post, (metricsHandler cfg).2.body =
      .plainText (pre ++ (toString cfg.fileserverHits).toList ++ post)) :=
  ⟨rfl, rfl, rfl, rfl,
    ⟨str "\n\t<html>\n\t\t<body>\n\t\t\t<h1>Welcome, Chirpy Admin</h1>\n\t\t\t<p>Chirpy has been visited ",
     str " times!</p>\n\t\t</body>\n\t</html>\n\t", rfl⟩⟩

/-- Claim C10: any request to the chirp endpoint whose method is not POST
gets exactly the single `405 "Method not allowed"` error, independently of
the request body (so no decode, length check, or substitution happens). -/
theorem validateChirp_non_post_rejected (m : Method)
    (decoded : Except Unit (List Char)) (h : m ≠ Method.post) :
    validateChirpHandler m decoded =
      [respondWithError 405 (str "Method not allowed")] := by
  unfold validateChirpHandler
  rw [if_pos h]

/-- Witness for claim C10: a GET request with a decodable profane body is
still answered only with the 405 error. -/
theorem validateChirp_non_post_rejected_witness :
    Method.get ≠ Method.post ∧
    validateChirpHandler Method.get (.ok (str "kerfuffle")) =
      [respondWithError 405 (str "Method not allowed")] :=
  ⟨by decide,
   validateChirp_non_post_rejected Method.get (.ok (str "kerfuffle"))
     (by decide)⟩

set_option maxRecDepth 4000 in
/-- Claim C1 (code behaviour at the failing input): a POST whose decoded
body is 141 bytes long gets the `400 "Chirp is too long"` error, but the
missing `return` at `main.go:119` makes the handler fall through and also
write the `200` success response with a `cleaned_body`. -/
theorem validateChirp_long_body_two_responses :
    validateChirpHandler Method.post (.ok (List.replicate 141 'a')) =
      [respondWithError 400 (str "Chirp is too long"),
       respondWithJSONCleaned 200 (List.replicate 141 'a')] := by
  have hf : fields (List.replicate 141 'a') = [List.replicate 141 'a'] :=
    fields_single_word (by simp)
      (fun c hc => by rw [List.eq_of_mem_replicate hc]; decide)
  have hip : isProfane profaneWords (List.replicate 141 'a') = false := by
    decide
  have hnp : ¬ (isProfane profaneWords (List.replicate 141 'a') = true) := by
    rw [hip]; exact Bool.false_ne_true
  have hclean : replaceProfaneWords (List.replicate 141 'a') profaneWords =
      List.replicate 141 'a' := by
    calc replaceProfaneWords (List.replicate 141 'a') profaneWords
        = joinSpace ((fields (List.replicate 141 'a')).map
            (maskWord profaneWords)) := rfl
      _ = joinSpace [maskWord profaneWords (List.replicate 141 'a')] := by
          rw [hf]; rfl
      _ = maskWord profaneWords (List.replicate 141 'a') := rfl
      _ = List.replicate 141 'a' := by unfold maskWord; rw [if_neg hnp]
  have hlen : utf8Len (List.replicate 141 'a') > 140 := by decide
  show (if utf8Len (List.replicate 141 'a') > 140
      then [respondWithError 400 (str "Chirp is too long")]
      else []) ++
    [respondWithJSONCleaned 200
      (replaceProfaneWords (List.replicate 141 'a') profaneWords)] = _
  rw [if_pos hlen, hclean]
  rfl

/-! ### The counter operations

Every mutation of `fileserverHits` in the program is one of: the increment
of `middlewareMetricsInc` (`main.go:46`), the zeroing of `resetHandler`
(`main.go:78`), or the pure read of `metricsHandler` (`main.go:70`). -/

/-- The counter operations performed by the program's handlers. -/
inductive CounterOp where
  | inc
  | reset
  | read
deriving DecidableEq, Repr

/-- Two's-complement wraparound of Go's 64-bit `int`: the representative of
`x` modulo `2^64` lying in `[-2^63, 2^63)`. -/
def wrap64 (x : Int) : Int :=
  (x + 2 ^ 63) % 2 ^ 64 - 2 ^ 63

/-- The effect of each counter operation on the counter: `inc` is
`fileserverHits++` in Go's wrapping 64-bit `int` arithmetic, `reset` is
`fileserverHits = 0`, `read` leaves the counter unchanged. -/
def applyCounterOp (c : Int) : CounterOp → Int
  | .inc => wrap64 (c + 1)
  | .reset => 0
  | .read => c

/-- The counter after running a sequence of operations from the startup
state. -/
def runCounter (ops : List CounterOp) : Int :=
  ops.foldl applyCounterOp initialApiConfig.fileserverHits

/-- One step of counting the increments that happened since the most recent
reset. -/
def incStep (acc : Nat) : CounterOp → Nat
  | .inc => acc + 1
  | .reset => 0
  | .read => acc

/-- How many increments a sequence of operations performs after its last
reset (all of them, when it contains no reset). -/
def incsSinceReset (ops : List CounterOp) : Nat :=
  ops.foldl incStep 0

theorem wrap64_wrap64_add (x y : Int) : wrap64 (wrap64 x + y) = wrap64 (x + y) := by
  unfold wrap64
  omega

theorem wrap64_zero : wrap64 0 = 0 := by
  unfold wrap64
  omega

theorem wrap64_coe_of_lt (k : Nat) (h : k < 2 ^ 63) : wrap64 (k : Int) = k := by
  unfold wrap64
  omega

theorem foldl_applyCounterOp_eq_wrap64 (ops : List CounterOp) :
    ∀ (c : Int) (k : Nat), c = wrap64 (k : Int) →
      ops.foldl applyCounterOp c = wrap64 ((ops.foldl incStep k : Nat) : Int) := by
  induction ops with
  | nil => intro c k h; simpa using h
  | cons op rest ih =>
    intro c k h
    rw [List.foldl_cons, List.foldl_cons]
    cases op with
    | inc =>
      apply ih
      show wrap64 (c + 1) = wrap64 ((k + 1 : Nat) : Int)
      rw [h, wrap64_wrap64_add]
      norm_num
    | reset =>
      apply ih
      show (0 : Int) = wrap64 ((0 : Nat) : Int)
      simp [wrap64_zero]
    | read => exact ih c k h

theorem runCounter_eq_wrap64 (ops : List CounterOp) :
    runCounter ops = wrap64 ((incsSinceReset ops : Nat) : Int) :=
  foldl_applyCounterOp_eq_wrap64 ops initialApiConfig.fileserverHits 0
    (by simp [initialApiConfig, wrap64_zero])

theorem incsSinceReset_replicate_inc (n : Nat) :
    incsSinceReset (List.replicate n CounterOp.inc) = n := by
  suffices h : ∀ (m k : Nat),
      (List.replicate m CounterOp.inc).foldl incStep k = k + m by
    simpa using h n 0
  intro m
  induction m with
  | zero => intro k; simp
  | succ m ih =>
    intro k
    rw [List.replicate_succ, List.foldl_cons]
    show (List.replicate m CounterOp.inc).foldl incStep (k + 1) = k + (m + 1)
    rw [ih (k + 1)]
    omega

/-- Claim C8, counterexample: Go's `int` wraps, so the concrete sequence of
`2^63` middleware increments from the zero startup counter drives
`fileserverHits` negative — the counter is not non-negative for every
sequence of operations. -/
theorem counter_negative_after_overflow :
    runCounter (List.replicate (2 ^ 63) CounterOp.inc) < 0 := by
  rw [runCounter_eq_wrap64, incsSinceReset_replicate_inc]
  unfold wrap64
  omega

/-- Claim C8 (amended): the hit counter starts at zero; every operation
adds one in wrapping 64-bit arithmetic, zeroes the counter, or leaves it
unchanged — the zeroing and reading ops being exactly the counter effects
of `resetHandler` and `metricsHandler` — and the counter is non-negative
after every sequence of operations that performs fewer than `2^63`
increments since its last reset (or since startup, when it never resets). -/
theorem counter_nonneg_without_overflow :
    runCounter [] = 0 ∧
    (∀ (c : Int) (op : CounterOp),
      applyCounterOp c op = wrap64 (c + 1) ∨ applyCounterOp c op = 0 ∨
        applyCounterOp c op = c) ∧
    (∀ cfg, (resetHandler cfg).1.fileserverHits =
      applyCounterOp cfg.fileserverHits .reset) ∧
    (∀ cfg, (metricsHandler cfg).1.fileserverHits =
      applyCounterOp cfg.fileserverHits .read) ∧
    (∀ ops : List CounterOp, incsSinceReset ops < 2 ^ 63 →
      0 ≤ runCounter ops) := by
  refine ⟨rfl, fun c op => ?_, fun cfg => rfl, fun cfg => rfl,
    fun ops hops => ?_⟩
  · cases op
    · exact Or.inl rfl
    · exact Or.inr (Or.inl rfl)
    · exact Or.inr (Or.inr rfl)
  · rw [runCounter_eq_wrap64, wrap64_coe_of_lt _ hops]
    exact Int.natCast_nonneg _

/-- Witness for the amended claim C8: two increments, a reset, and one more
increment stay far from the wraparound bound and leave a non-negative
counter. -/
theorem counter_nonneg_without_overflow_witness :
    incsSinceReset [CounterOp.inc, CounterOp.inc, CounterOp.reset,
      CounterOp.inc] < 2 ^ 63 ∧
    0 ≤ runCounter [CounterOp.inc, CounterOp.inc, CounterOp.reset,
      CounterOp.inc] :=
  ⟨by decide,
   counter_nonneg_without_overflow.2.2.2.2
     [CounterOp.inc, CounterOp.inc, CounterOp.reset, CounterOp.inc]
     (by decide)⟩

/-! ### The lock discipline and serialization of the counter

Two views of the mutex `cfg.mu`. First, each handler body is abstracted to
its sequence of mutex and counter instructions, checked to access the
counter only between `Lock` and `Unlock`. Second, the critical section of
`middlewareMetricsInc` (`main.go:45-47`) is run by many threads at once in
an interleaving semantics, where `fileserverHits++` is a separate read and
write of the shared counter and the mutex blocks concurrent entry; a
complete run of `n` requests is shown to add exactly `n`. -/

/-- The mutex- and counter-relevant instructions of a handler body. -/
inductive Instr where
  | lock
  | unlock
  | incCounter
  | readCounter
  | zeroCounter
  | other
deriving DecidableEq, Repr

/-- From a given mutex state, every counter instruction is executed while
the mutex is held, locking is balanced, and the mutex is free again at the
end. -/
def wellLockedFrom : Bool → List Instr → Bool
  | held, [] => !held
  | held, i :: rest =>
    match i with
    | .lock => !held && wellLockedFrom true rest
    | .unlock => held && wellLockedFrom false rest
    | .incCounter => held && wellLockedFrom held rest
    | .readCounter => held && wellLockedFrom held rest
    | .zeroCounter => held && wellLockedFrom held rest
    | .other => wellLockedFrom held rest

/-- A handler body starts and ends with the mutex free and touches the
counter only under the lock. -/
def wellLocked (l : List Instr) : Bool :=
  wellLockedFrom false l

/-- Trace of `middlewareMetricsInc` (`main.go:42-52`): lock, increment, unlock, then
run the wrapped handler. -/
def middlewareTrace : List Instr :=
  [.lock, .incCounter, .unlock, .other]

/-- Trace of `metricsHandler` (`main.go:54-73`): lock with deferred unlock, write the
headers, read the counter into the page, write it, unlock on return. -/
def metricsTrace : List Instr :=
  [.lock, .other, .readCounter, .other, .unlock]

/-- Trace of `resetHandler` (`main.go:75-85`): lock, zero the counter, unlock, then
write the response. -/
def resetTrace : List Instr :=
  [.lock, .zeroCounter, .unlock, .other, .other]

/-- Where one execution of the middleware's critical section stands:
waiting for the mutex, holding it, holding it after reading the counter
value `r`, holding it after writing back `r + 1`, or done. -/
inductive Phase where
  | start
  | locked
  | hasRead (r : Int)
  | wroteBack
  | finished
deriving DecidableEq, Repr

/-- The phases that hold the mutex. -/
def inCrit : Phase → Bool
  | .locked => true
  | .hasRead _ => true
  | .wroteBack => true
  | _ => false

/-- The phases whose increment has already reached the shared counter. -/
def isDone : Phase → Bool
  | .wroteBack => true
  | .finished => true
  | _ => false

/-- Shared state of the interleaving semantics: the counter and the phase
of every thread. -/
structure MState where
  counter : Int
  threads : List Phase
deriving DecidableEq, Repr

/-- One interleaved step: some thread acquires the free mutex, reads the
counter, writes back its read value plus one (`fileserverHits++` split into
its read and write), or releases the mutex. -/
inductive MStep : MState → MState → Prop where
  | acquire (s : MState) (i : Nat) (h : s.threads[i]? = some .start)
      (hfree : ∀ p ∈ s.threads, inCrit p = false) :
      MStep s ⟨s.counter, s.threads.set i .locked⟩
  | readC (s : MState) (i : Nat) (h : s.threads[i]? = some .locked) :
      MStep s ⟨s.counter, s.threads.set i (.hasRead s.counter)⟩
  | writeC (s : MState) (i : Nat) (r : Int)
      (h : s.threads[i]? = some (.hasRead r)) :
      MStep s ⟨r + 1, s.threads.set i .wroteBack⟩
  | release (s : MState) (i : Nat) (h : s.threads[i]? = some .wroteBack) :
      MStep s ⟨s.counter, s.threads.set i .finished⟩

/-- Finitely many interleaved steps. -/
def MSteps : MState → MState → Prop :=
  Relation.ReflTransGen MStep

/-- How many threads have already applied their increment. -/
def doneCount (ts : List Phase) : Nat :=
  ts.countP isDone

theorem countP_set (p : Phase → Bool) (l : List Phase) (i : Nat) (a : Phase)
    (h : i < l.length) :
    (l.set i a).countP p + (if p l[i] then 1 else 0) =
      l.countP p + (if p a then 1 else 0) := by
  induction l generalizing i with
  | nil => simp at h
  | cons b rest ih =>
    cases i with
    | zero =>
      simp only [List.set_cons_zero, List.countP_cons, List.getElem_cons_zero]
      omega
    | succ j =>
      have hj : j < rest.length := by simpa using h
      have := ih j hj
      simp only [List.set_cons_succ, List.countP_cons,
        List.getElem_cons_succ]
      omega

/-- The execution invariant: at most one thread holds the mutex, a thread
that has read the counter under the mutex has read its current value, and
the counter is the initial value plus the number of applied increments. -/
structure MInv (init : Int) (s : MState) : Prop where
  excl : ∀ i j (hi : i < s.threads.length) (hj : j < s.threads.length),
    inCrit s.threads[i] = true → inCrit s.threads[j] = true → i = j
  readsOk : ∀ (i : Nat) (r : Int),
    s.threads[i]? = some (Phase.hasRead r) → r = s.counter
  count : s.counter = init + doneCount s.threads

theorem hasRead_at_crit {s : MState}
    (excl : ∀ i j (hi : i < s.threads.length) (hj : j < s.threads.length),
      inCrit s.threads[i] = true → inCrit s.threads[j] = true → i = j)
    {i : Nat} {v : Phase} (h : s.threads[i]? = some v) (hv : inCrit v = true)
    {j : Nat} {r : Int} (hj : s.threads[j]? = some (Phase.hasRead r)) :
    j = i := by
  obtain ⟨hi, hvi⟩ := List.getElem?_eq_some_iff.mp h
  obtain ⟨hjl, hvj⟩ := List.getElem?_eq_some_iff.mp hj
  exact excl j i hjl hi (by rw [hvj]; rfl) (by rw [hvi]; exact hv)

theorem MInv_step {init : Int} {s s' : MState} (hstep : MStep s s')
    (hinv : MInv init s) : MInv init s' := by
  obtain ⟨excl, readsOk, count⟩ := hinv
  cases hstep with
  | acquire i h hfree =>
    obtain ⟨hi, hvi⟩ := List.getElem?_eq_some_iff.mp h
    have key : ∀ k (hk : k < (s.threads.set i Phase.locked).length),
        inCrit (s.threads.set i Phase.locked)[k] = true → k = i := by
      intro k hk hck
      by_contra hne
      have hk' : k < s.threads.length := by simpa using hk
      rw [List.getElem_set_ne (fun he => hne he.symm)] at hck
      have hfr := hfree (s.threads[k]) (List.getElem_mem hk')
      rw [hck] at hfr
      exact Bool.false_ne_true hfr.symm
    refine ⟨?_, ?_, ?_⟩
    · intro a b ha hb hca hcb
      rw [key a ha hca, key b hb hcb]
    · intro j r hj
      exfalso
      by_cases hji : j = i
      · subst hji
        rw [List.getElem?_set_self hi] at hj
        exact Phase.noConfusion (Option.some.inj hj)
      · rw [List.getElem?_set_ne (fun he => hji he.symm)] at hj
        have hm := List.getElem?_mem hj
        have := hfree _ hm
        simp [inCrit] at this
    · have hcnt := countP_set isDone s.threads i Phase.locked hi
      rw [hvi] at hcnt
      simp [isDone] at hcnt
      show s.counter = init + doneCount (s.threads.set i Phase.locked)
      unfold doneCount at count ⊢
      omega
  | readC i h =>
    obtain ⟨hi, hvi⟩ := List.getElem?_eq_some_iff.mp h
    have key : ∀ k (hk : k < (s.threads.set i (Phase.hasRead s.counter)).length),
        inCrit (s.threads.set i (Phase.hasRead s.counter))[k] = true → k = i := by
      intro k hk hck
      by_cases hki : k = i
      · exact hki
      · have hk' : k < s.threads.length := by simpa using hk
        rw [List.getElem_set_ne (fun he => hki he.symm)] at hck
        exact excl k i hk' hi hck (by rw [hvi]; rfl)
    refine ⟨?_, ?_, ?_⟩
    · intro a b ha hb hca hcb
      rw [key a ha hca, key b hb hcb]
    · intro j r hj
      by_cases hji : j = i
      · subst hji
        rw [List.getElem?_set_self hi] at hj
        have := Option.some.inj hj
        show r = s.counter
        cases this
        rfl
      · rw [List.getElem?_set_ne (fun he => hji he.symm)] at hj
        exact absurd (hasRead_at_crit excl h rfl hj) hji
    · have hcnt := countP_set isDone s.threads i (Phase.hasRead s.counter) hi
      rw [hvi] at hcnt
      simp [isDone] at hcnt
      show s.counter = init + doneCount (s.threads.set i (Phase.hasRead s.counter))
      unfold doneCount at count ⊢
      omega
  | writeC i r h =>
    obtain ⟨hi, hvi⟩ := List.getElem?_eq_some_iff.mp h
    have hr : r = s.counter := readsOk i r h
    have key : ∀ k (hk : k < (s.threads.set i Phase.wroteBack).length),
        inCrit (s.threads.set i Phase.wroteBack)[k] = true → k = i := by
      intro k hk hck
      by_cases hki : k = i
      · exact hki
      · have hk' : k < s.threads.length := by simpa using hk
        rw [List.getElem_set_ne (fun he => hki he.symm)] at hck
        exact excl k i hk' hi hck (by rw [hvi]; rfl)
    refine ⟨?_, ?_, ?_⟩
    · intro a b ha hb hca hcb
      rw [key a ha hca, key b hb hcb]
    · intro j r' hj
      exfalso
      by_cases hji : j = i
      · subst hji
        rw [List.getElem?_set_self hi] at hj
        exact Phase.noConfusion (Option.some.inj hj)
      · rw [List.getElem?_set_ne (fun he => hji he.symm)] at hj
        exact hji (hasRead_at_crit excl h rfl hj)
    · have hcnt := countP_set isDone s.threads i Phase.wroteBack hi
      rw [hvi] at hcnt
      simp [isDone] at hcnt
      show r + 1 = init + doneCount (s.threads.set i Phase.wroteBack)
      unfold doneCount at count ⊢
      omega
  | release i h =>
    obtain ⟨hi, hvi⟩ := List.getElem?_eq_some_iff.mp h
    refine ⟨?_, ?_, ?_⟩
    · intro a b ha hb hca hcb
      have keep : ∀ k (hk : k < (s.threads.set i Phase.finished).length),
          inCrit (s.threads.set i Phase.finished)[k] = true → k = i := by
        intro k hk hck
        by_cases hki : k = i
        · exact hki
        · have hk' : k < s.threads.length := by simpa using hk
          rw [List.getElem_set_ne (fun he => hki he.symm)] at hck
          exact excl k i hk' hi hck (by rw [hvi]; rfl)
      rw [keep a ha hca, keep b hb hcb]
    · intro j r hj
      exfalso
      by_cases hji : j = i
      · subst hji
        rw [List.getElem?_set_self hi] at hj
        exact Phase.noConfusion (Option.some.inj hj)
      · rw [List.getElem?_set_ne (fun he => hji he.symm)] at hj
        exact hji (hasRead_at_crit excl h rfl hj)
    · have hcnt := countP_set isDone s.threads i Phase.finished hi
      rw [hvi] at hcnt
      simp [isDone] at hcnt
      show s.counter = init + doneCount (s.threads.set i Phase.finished)
      unfold doneCount at count ⊢
      omega

theorem MInv_steps {init : Int} {s s' : MState} (h : MSteps s s')
    (hinv : MInv init s) : MInv init s' := by
  induction h with
  | refl => exact hinv
  | tail _ hstep ih => exact MInv_step hstep ih

theorem MSteps_length {s s' : MState} (h : MSteps s s') :
    s'.threads.length = s.threads.length := by
  induction h with
  | refl => rfl
  | tail _ hstep ih =>
    cases hstep <;> simpa using ih

theorem MInv_init (init : Int) (n : Nat) :
    MInv init ⟨init, List.replicate n Phase.start⟩ := by
  refine ⟨?_, ?_, ?_⟩
  · intro i j hi hj hci _
    exfalso
    have : (List.replicate n Phase.start)[i] = Phase.start :=
      List.getElem_replicate _ hi
    rw [this] at hci
    exact Bool.false_ne_true hci
  · intro i r h
    exfalso
    have := List.eq_of_mem_replicate (List.getElem?_mem h)
    exact Phase.noConfusion this
  · show init = init + doneCount (List.replicate n Phase.start)
    have : doneCount (List.replicate n Phase.start) = 0 :=
      List.countP_eq_zero.mpr
        (fun p hp => by rw [List.eq_of_mem_replicate hp]; simp [isDone])
    rw [this]
    omega

/-- Claim C7: each handler accesses the counter only while holding the
mutex, and the mutex serializes the middleware's read-increment-write
critical sections: in the interleaving semantics, every complete execution
of `n` concurrent counter increments ends with the counter raised by
exactly `n`, so no increment is lost. -/
theorem counter_locked_and_no_lost_increment :
    (wellLocked middlewareTrace = true ∧ wellLocked metricsTrace = true ∧
     wellLocked resetTrace = true) ∧
    ∀ (init : Int) (n : Nat) (s : MState),
      MSteps ⟨init, List.replicate n Phase.start⟩ s →
      (∀ p ∈ s.threads, p = Phase.finished) →
      s.counter = init + n := by
  refine ⟨⟨by decide, by decide, by decide⟩, ?_⟩
  intro init n s hsteps hfin
  have hinv := MInv_steps hsteps (MInv_init init n)
  have hlen : s.threads.length = n := by
    rw [MSteps_length hsteps]
    simp
  have hdone : doneCount s.threads = s.threads.length :=
    List.countP_eq_length.mpr (fun p hp => by rw [hfin p hp]; rfl)
  rw [hinv.count, hdone, hlen]

/-- Witness for claim C7: one thread runs the critical section to
completion — acquire, read `0`, write back `1`, release — and the counter
ends at `0 + 1`. -/
theorem counter_locked_and_no_lost_increment_witness :
    (MState.mk 1 [Phase.finished]).counter = (0 : Int) + ((1 : Nat) : Int) := by
  have step1 : MStep ⟨0, [Phase.start]⟩ ⟨0, [Phase.locked]⟩ :=
    MStep.acquire ⟨0, [Phase.start]⟩ 0 rfl (by decide)
  have step2 : MStep ⟨0, [Phase.locked]⟩ ⟨0, [Phase.hasRead 0]⟩ :=
    MStep.readC ⟨0, [Phase.locked]⟩ 0 rfl
  have step3 : MStep ⟨0, [Phase.hasRead 0]⟩ ⟨1, [Phase.wroteBack]⟩ :=
    MStep.writeC ⟨0, [Phase.hasRead 0]⟩ 0 0 rfl
  have step4 : MStep ⟨1, [Phase.wroteBack]⟩ ⟨1, [Phase.finished]⟩ :=
    MStep.release ⟨1, [Phase.wroteBack]⟩ 0 rfl
  have hsteps : MSteps ⟨0, List.replicate 1 Phase.start⟩
      ⟨1, [Phase.finished]⟩ :=
    Relation.ReflTransGen.head step1 (Relation.ReflTransGen.head step2
      (Relation.ReflTransGen.head step3
        (Relation.ReflTransGen.head step4 Relation.ReflTransGen.refl)))
  exact counter_locked_and_no_lost_increment.2 0 1 ⟨1, [Phase.finished]⟩
    hsteps (by decide)

end GoWebServer
